import Mathlib

/-!
Shallow embedding of the byte-rope implementation in
`crates/turbo-tasks-fs/src/rope.rs`, together with proofs of the spec's
claims about it.  Byte buffers (`Bytes`, `Vec<u8>`, `&'static [u8]`) are
modelled as `List Nat`; the reference-counted sharing (`Arc`) is immaterial
to the byte-level semantics and is erased.
-/

set_option maxHeartbeats 1000000

/-- Differentiates the types of stored bytes in a rope (`enum RopeElem`).
`Local` owns bytes directly; `Shared` holds the inner store of another
rope.  An `InnerRope` is the segment store, modelled as `List RopeElem`. -/
inductive RopeElem where
  | Local (bytes : List Nat)
  | Shared (inner : List RopeElem)

/-- The rope value (`struct Rope`): a recorded total length plus the
segment store. -/
structure Rope where
  length : Nat
  data : List RopeElem

/-- Pending, not-yet-committed bytes of a builder (`enum Uncommitted`). -/
inductive Uncommitted where
  | None
  | Static (s : List Nat)
  | Owned (v : List Nat)
deriving DecidableEq

/-- The builder (`struct RopeBuilder`): committed length, committed
segments, and the pending region.  The field name `uncommited` keeps the
source's spelling. -/
structure RopeBuilder where
  length : Nat
  committed : List RopeElem
  uncommited : Uncommitted

mutual

/-- Flattened byte sequence of a single segment (semantic denotation used
by the proofs; leaves contribute their bytes, branches recurse). -/
def RopeElem.flatten : RopeElem → List Nat
  | .Local b => b
  | .Shared inner => InnerRope.flatten inner

/-- Flattened byte sequence of a segment store, in order. -/
def InnerRope.flatten : List RopeElem → List Nat
  | [] => []
  | e :: rest => RopeElem.flatten e ++ InnerRope.flatten rest

end

mutual

/-- Structural well-formedness of a single segment: leaves are non-empty
(invariant I1) and branches reference non-empty, well-formed stores
(invariant I2). -/
def RopeElem.wfEl : RopeElem → Bool
  | .Local b => !b.isEmpty
  | .Shared inner => !inner.isEmpty && InnerRope.wfList inner

/-- Structural well-formedness of a segment store. -/
def InnerRope.wfList : List RopeElem → Bool
  | [] => true
  | e :: rest => RopeElem.wfEl e && InnerRope.wfList rest

end

/-- A well-formed rope value: the recorded length matches the flattened
byte count (invariant I3) and the store is structurally well formed. -/
def Rope.WF (r : Rope) : Prop :=
  r.length = (InnerRope.flatten r.data).length ∧ InnerRope.wfList r.data = true

def Rope.len (r : Rope) : Nat := r.length

def Rope.is_empty (r : Rope) : Bool := r.length == 0

/-- From `impl From<T: Into<Bytes>> for Rope`: an empty buffer yields the
canonical empty rope; otherwise a single-leaf store. -/
def Rope.fromBytes (bytes : List Nat) : Rope :=
  if bytes = [] then ⟨0, []⟩
  else ⟨bytes.length, [RopeElem.Local bytes]⟩

/-- In-memory size of a `Bytes` reference (`mem::size_of::<Bytes>()`):
four machine words on a 64-bit platform. -/
def bytesSize : Nat := 32

def Uncommitted.len : Uncommitted → Nat
  | .None => 0
  | .Static s => s.length
  | .Owned v => v.length

/-- From `Uncommitted::push_bytes`: convert the current representation to
an `Owned`, concatenating any previously held static bytes. -/
def Uncommitted.push_bytes : Uncommitted → List Nat → Uncommitted
  | .None, bytes => .Owned bytes
  | .Static s, bytes => .Owned (s ++ bytes)
  | .Owned v, bytes => .Owned (v ++ bytes)

/-- From `Uncommitted::push_static_bytes`: store static bytes only when
currently `None`; otherwise degrade to `push_bytes`. -/
def Uncommitted.push_static_bytes : Uncommitted → List Nat → Uncommitted
  | .None, bytes => .Static bytes
  | u, bytes => u.push_bytes bytes

/-- From `Uncommitted::finish`: the bytes to commit, if any.  The Rust
function also resets the representation to `None` (via `mem::take`); the
callers below thread that explicitly. -/
def Uncommitted.finish : Uncommitted → Option (List Nat)
  | .None => none
  | .Static s => some s
  | .Owned v => some v

/-- From `RopeBuilder::push_bytes`: empty input is a no-op, otherwise the
bytes are routed to the pending region. -/
def RopeBuilder.push_bytes (bld : RopeBuilder) (bytes : List Nat) : RopeBuilder :=
  if bytes = [] then bld
  else { bld with uncommited := bld.uncommited.push_bytes bytes }

/-- From `RopeBuilder::finish`: commit the pending region (if non-`None`)
as a `Local` segment and reset pending to `None`. -/
def RopeBuilder.finish (bld : RopeBuilder) : RopeBuilder :=
  match bld.uncommited.finish with
  | none => { bld with uncommited := .None }
  | some b =>
    { length := bld.length + b.length
      committed := bld.committed ++ [RopeElem.Local b]
      uncommited := .None }

/-- From `RopeBuilder::push_static_bytes`: empty input is a no-op; input
smaller than `size_of::<Bytes>()` is routed to the pending region;
otherwise the pending region is flushed and the bytes are committed as
their own leaf. -/
def RopeBuilder.push_static_bytes (bld : RopeBuilder) (bytes : List Nat) : RopeBuilder :=
  if bytes = [] then bld
  else if bytes.length < bytesSize then
    { bld with uncommited := bld.uncommited.push_static_bytes bytes }
  else
    let f := bld.finish
    { length := f.length + bytes.length
      committed := f.committed ++ [RopeElem.Local bytes]
      uncommited := f.uncommited }

/-- From `RopeBuilder::concat`: an empty rope is a no-op; otherwise the
pending region is flushed and the other rope's store is appended as a
single `Shared` segment. -/
def RopeBuilder.concat (bld : RopeBuilder) (other : Rope) : RopeBuilder :=
  if other.is_empty then bld
  else
    let f := bld.finish
    { length := f.length + other.len
      committed := f.committed ++ [RopeElem.Shared other.data]
      uncommited := f.uncommited }

def RopeBuilder.len (bld : RopeBuilder) : Nat := bld.length + bld.uncommited.len

/-- From `RopeBuilder::build`: flush, then seal the committed segments
into a rope value. -/
def RopeBuilder.build (bld : RopeBuilder) : Rope :=
  let f := bld.finish
  ⟨f.length, f.committed⟩

/-- The `Default` builder: nothing committed, pending region empty. -/
def RopeBuilder.empty : RopeBuilder := ⟨0, [], .None⟩

/-- Well-formedness of the pending region: invariant I5, non-`None`
states hold non-empty bytes. -/
def Uncommitted.wfU : Uncommitted → Bool
  | .None => true
  | .Static s => !s.isEmpty
  | .Owned v => !v.isEmpty

/-- Builder invariant: committed length matches the flattened committed
bytes, the committed store is well formed, and the pending region is
well formed. -/
def RopeBuilder.WFB (bld : RopeBuilder) : Prop :=
  bld.length = (InnerRope.flatten bld.committed).length ∧
  InnerRope.wfList bld.committed = true ∧
  bld.uncommited.wfU = true

/-- A frame of the reader's traversal stack (`enum StackElem`): either a
leaf slice or a branch store with the index of the next segment. -/
inductive StackElem where
  | Local (b : List Nat)
  | Shared (inner : List RopeElem) (idx : Nat)

/-- From `impl From<RopeElem> for StackElem`. -/
def StackElem.fromElem : RopeElem → StackElem
  | .Local bytes => .Local bytes
  | .Shared inner => .Shared inner 0

/-- From `RopeReader::new`: the reader state is the frame stack (top
first); an empty store yields an empty stack. -/
def RopeReader.new (rope : List RopeElem) : List StackElem :=
  if rope.isEmpty then [] else [StackElem.Shared rope 0]

mutual

/-- Number of stack pops the lazy iterator spends inside one segment
(used as the termination measure of the reader functions). -/
def RopeElem.pops : RopeElem → Nat
  | .Local _ => 1
  | .Shared inner => InnerRope.pops inner

/-- Number of stack pops the lazy iterator spends on a segment store. -/
def InnerRope.pops : List RopeElem → Nat
  | [] => 0
  | e :: rest => 1 + RopeElem.pops e + InnerRope.pops rest

end

/-- Remaining pops a single stack frame can cause. -/
def StackElem.pops : StackElem → Nat
  | .Local _ => 1
  | .Shared r i => InnerRope.pops (r.drop i)

/-- Remaining pops of a whole reader stack. -/
def stackPops : List StackElem → Nat
  | [] => 0
  | x :: rest => x.pops + stackPops rest

/-- Termination measure for the reader loop: every step of the iterator
strictly decreases it. -/
def mu (s : List StackElem) : Nat := 2 * stackPops s + s.length

/-- Bytes still to be yielded by a reader stack, in stream order. -/
def stackFlat : List StackElem → List Nat
  | [] => []
  | .Local b :: rest => b ++ stackFlat rest
  | .Shared r i :: rest => InnerRope.flatten (r.drop i) ++ stackFlat rest

/-- Well-formedness of a reader stack: leaf frames are non-empty and
branch frames point into well-formed stores. -/
def stackWF : List StackElem → Bool
  | [] => true
  | .Local b :: rest => !b.isEmpty && stackWF rest
  | .Shared r i :: rest => InnerRope.wfList (r.drop i) && stackWF rest

theorem stackPops_cons (x : StackElem) (t : List StackElem) :
    stackPops (x :: t) = x.pops + stackPops t := rfl

theorem pops_shared (r : List RopeElem) (i : Nat) :
    (StackElem.Shared r i).pops = InnerRope.pops (r.drop i) := rfl

theorem stackFlat_fromElem (e : RopeElem) (t : List StackElem) :
    stackFlat (StackElem.fromElem e :: t) = e.flatten ++ stackFlat t := by
  cases e <;> simp [StackElem.fromElem, stackFlat, RopeElem.flatten]

theorem pops_fromElem (e : RopeElem) : (StackElem.fromElem e).pops = e.pops := by
  cases e <;> simp [StackElem.fromElem, StackElem.pops, RopeElem.pops]

theorem flatten_drop {r : List RopeElem} {i : Nat} (h : i < r.length) :
    InnerRope.flatten (r.drop i) = (r[i]).flatten ++ InnerRope.flatten (r.drop (i + 1)) := by
  rw [List.drop_eq_getElem_cons h]; rfl

theorem pops_drop {r : List RopeElem} {i : Nat} (h : i < r.length) :
    InnerRope.pops (r.drop i) = 1 + (r[i]).pops + InnerRope.pops (r.drop (i + 1)) := by
  rw [List.drop_eq_getElem_cons h]; rfl

theorem wfList_drop {r : List RopeElem} {i : Nat} (h : i < r.length) :
    InnerRope.wfList (r.drop i) = ((r[i]).wfEl && InnerRope.wfList (r.drop (i + 1))) := by
  rw [List.drop_eq_getElem_cons h]; rfl

/-- In `RopeReader::next`, after visiting index `i` of a branch frame
the frame is pushed back with index `i + 1` when further segments
remain. -/
def pushBack (r : List RopeElem) (i : Nat) (rest : List StackElem) : List StackElem :=
  if i + 1 < r.length then StackElem.Shared r (i + 1) :: rest else rest

theorem mu_cons (x : StackElem) (t : List StackElem) :
    mu (x :: t) = 2 * x.pops + 1 + mu t := by
  simp only [mu, stackPops_cons, List.length_cons]; omega

theorem mu_pushBack (r : List RopeElem) (i : Nat) (rest : List StackElem) :
    mu (pushBack r i rest) ≤ 2 * InnerRope.pops (r.drop (i + 1)) + 1 + mu rest := by
  unfold pushBack
  split
  · rw [mu_cons, pops_shared]
  · omega

/-- From `impl Iterator for RopeReader` (`fn next`): pop frames until a
`Local` leaf is found, pushing the branch frame back (index advanced)
when it has further segments, then pushing the visited segment.  The Rust
method mutates the stack and returns `Option<Bytes>`; here it returns
the yielded bytes together with the stack left behind.  A branch frame
whose index is out of range cannot occur for states reachable from a
rope (indexing would panic in Rust); it is treated as exhausted. -/
def RopeReader.next : List StackElem → Option (List Nat) × List StackElem
  | [] => (none, [])
  | .Local b :: rest => (some b, rest)
  | .Shared r i :: rest =>
    if h : i < r.length then
      RopeReader.next (StackElem.fromElem r[i] :: pushBack r i rest)
    else
      RopeReader.next rest
termination_by s => mu s
decreasing_by
  · have hp := mu_pushBack r i rest
    rw [mu_cons, mu_cons, pops_fromElem, pops_shared, pops_drop h]
    omega
  · rw [mu_cons, pops_shared]
    omega

theorem stackWF_cons_local (b : List Nat) (t : List StackElem) :
    stackWF (StackElem.Local b :: t) = (!b.isEmpty && stackWF t) := rfl

theorem stackWF_cons_shared (r : List RopeElem) (i : Nat) (t : List StackElem) :
    stackWF (StackElem.Shared r i :: t) = (InnerRope.wfList (r.drop i) && stackWF t) := rfl

theorem stackFlat_pushBack (r : List RopeElem) (i : Nat) (rest : List StackElem) :
    stackFlat (pushBack r i rest) = InnerRope.flatten (r.drop (i + 1)) ++ stackFlat rest := by
  unfold pushBack
  split
  · rfl
  · rename_i h2
    rw [List.drop_eq_nil_of_le (by omega)]
    rfl

theorem stackWF_fromElem {e : RopeElem} {t : List StackElem}
    (he : e.wfEl = true) (ht : stackWF t = true) :
    stackWF (StackElem.fromElem e :: t) = true := by
  cases e with
  | Local b =>
    simp only [RopeElem.wfEl] at he
    simp [StackElem.fromElem, stackWF_cons_local, he, ht]
  | Shared inner =>
    simp only [RopeElem.wfEl, Bool.and_eq_true] at he
    simp [StackElem.fromElem, stackWF_cons_shared, he.2, ht]

theorem stackWF_pushBack {r : List RopeElem} {i : Nat} {rest : List StackElem}
    (hd : InnerRope.wfList (r.drop (i + 1)) = true) (ht : stackWF rest = true) :
    stackWF (pushBack r i rest) = true := by
  unfold pushBack
  split
  · simp [stackWF_cons_shared, hd, ht]
  · exact ht

theorem next_spec (s : List StackElem) :
    (∀ s', RopeReader.next s = (none, s') → s' = [] ∧ stackFlat s = []) ∧
    (∀ b s', RopeReader.next s = (some b, s') →
      stackFlat s = b ++ stackFlat s' ∧ mu s' < mu s ∧
      (stackWF s = true → (b ≠ [] ∧ stackWF s' = true))) := by
  induction s using RopeReader.next.induct with
  | case1 =>
    constructor
    · intro s' h
      simp [RopeReader.next] at h
      simp [h, stackFlat]
    · intro b s' h
      simp [RopeReader.next] at h
  | case2 b rest =>
    constructor
    · intro s' h
      simp [RopeReader.next] at h
    · intro b' s' h
      simp [RopeReader.next] at h
      obtain ⟨hb, hs⟩ := h
      subst hb; subst hs
      refine ⟨rfl, ?_, ?_⟩
      · rw [mu_cons]; omega
      · intro hwf
        rw [stackWF_cons_local] at hwf
        simp at hwf
        exact ⟨by simpa using hwf.1, hwf.2⟩
  | case3 r i rest h ih =>
    have heq : RopeReader.next (StackElem.Shared r i :: rest) =
        RopeReader.next (StackElem.fromElem r[i] :: pushBack r i rest) := by
      conv_lhs => rw [RopeReader.next]
      rw [dif_pos h]
    have hflat : stackFlat (StackElem.Shared r i :: rest) =
        stackFlat (StackElem.fromElem r[i] :: pushBack r i rest) := by
      show InnerRope.flatten (r.drop i) ++ stackFlat rest = _
      rw [stackFlat_fromElem, stackFlat_pushBack, flatten_drop h, List.append_assoc]
    have hmu : mu (StackElem.fromElem r[i] :: pushBack r i rest) <
        mu (StackElem.Shared r i :: rest) := by
      have hp := mu_pushBack r i rest
      rw [mu_cons, mu_cons, pops_fromElem, pops_shared, pops_drop h]
      omega
    have hwfstep : stackWF (StackElem.Shared r i :: rest) = true →
        stackWF (StackElem.fromElem r[i] :: pushBack r i rest) = true := by
      intro hwf
      rw [stackWF_cons_shared, wfList_drop h, Bool.and_eq_true, Bool.and_eq_true] at hwf
      exact stackWF_fromElem hwf.1.1 (stackWF_pushBack hwf.1.2 hwf.2)
    constructor
    · intro s' hn
      rw [heq] at hn
      obtain ⟨h1, h2⟩ := ih.1 s' hn
      exact ⟨h1, by rw [hflat]; exact h2⟩
    · intro b s' hn
      rw [heq] at hn
      obtain ⟨h1, h2, h3⟩ := ih.2 b s' hn
      refine ⟨by rw [hflat]; exact h1, by omega, fun hwf => h3 (hwfstep hwf)⟩
  | case4 r i rest h ih =>
    have hdrop : r.drop i = [] := List.drop_eq_nil_of_le (by omega)
    have heq : RopeReader.next (StackElem.Shared r i :: rest) = RopeReader.next rest := by
      conv_lhs => rw [RopeReader.next]
      rw [dif_neg h]
    have hflat : stackFlat (StackElem.Shared r i :: rest) = stackFlat rest := by
      show InnerRope.flatten (r.drop i) ++ stackFlat rest = _
      rw [hdrop]
      rfl
    have hmu : mu rest < mu (StackElem.Shared r i :: rest) := by
      rw [mu_cons]; omega
    have hwfstep : stackWF (StackElem.Shared r i :: rest) = true → stackWF rest = true := by
      intro hwf
      rw [stackWF_cons_shared, Bool.and_eq_true] at hwf
      exact hwf.2
    constructor
    · intro s' hn
      rw [heq] at hn
      obtain ⟨h1, h2⟩ := ih.1 s' hn
      exact ⟨h1, by rw [hflat]; exact h2⟩
    · intro b s' hn
      rw [heq] at hn
      obtain ⟨h1, h2, h3⟩ := ih.2 b s' hn
      refine ⟨by rw [hflat]; exact h1, by omega, fun hwf => h3 (hwfstep hwf)⟩

theorem next_none_spec {s s' : List StackElem} (h : RopeReader.next s = (none, s')) :
    s' = [] ∧ stackFlat s = [] := (next_spec s).1 s' h

theorem next_some_flat {s s' : List StackElem} {b : List Nat}
    (h : RopeReader.next s = (some b, s')) : stackFlat s = b ++ stackFlat s' :=
  ((next_spec s).2 b s' h).1

theorem next_some_mu {s s' : List StackElem} {b : List Nat}
    (h : RopeReader.next s = (some b, s')) : mu s' < mu s :=
  ((next_spec s).2 b s' h).2.1

theorem next_some_wf {s s' : List StackElem} {b : List Nat}
    (h : RopeReader.next s = (some b, s')) (hwf : stackWF s = true) :
    b ≠ [] ∧ stackWF s' = true :=
  ((next_spec s).2 b s' h).2.2 hwf

/-- From `impl BufRead for RopeReader` (`fn fill_buf`): fetch the next
lazy slice and push it back as a leaf frame so the same bytes are
returned until `consume` is called; an exhausted reader returns the
empty buffer. -/
def RopeReader.fill_buf (s : List StackElem) : List Nat × List StackElem :=
  match RopeReader.next s with
  | (none, s') => ([], s')
  | (some b, s') => (b, StackElem.Local b :: s')

/-- From `impl BufRead for RopeReader` (`fn consume`): on a leaf top
frame, pop it when `amt` equals its remaining length, advance it when
`amt` is smaller, and panic (modelled as `none`, from `Bytes::advance`)
when `amt` is larger; on an empty stack or branch top frame, a no-op. -/
def RopeReader.consume (amt : Nat) : List StackElem → Option (List StackElem)
  | .Local b :: rest =>
    if amt = b.length then some rest
    else if amt ≤ b.length then some (StackElem.Local (b.drop amt) :: rest)
    else none
  | s => some s

/-- In `RopeReader::read_internal`, a partially consumed slice is
advanced and pushed back onto the stack; a fully consumed slice is
dropped. -/
def takeFrame (bytes : List Nat) (amount : Nat) (s' : List StackElem) : List StackElem :=
  if amount < bytes.length then StackElem.Local (bytes.drop amount) :: s' else s'

theorem takeFrame_of_len_zero (bytes : List Nat) (amount : Nat) (s' : List StackElem)
    (h : bytes.length = 0) : takeFrame bytes amount s' = s' := by
  unfold takeFrame
  rw [if_neg (by omega)]

theorem stackFlat_takeFrame (bytes : List Nat) (amount : Nat) (s' : List StackElem) :
    stackFlat (takeFrame bytes amount s') = bytes.drop amount ++ stackFlat s' := by
  unfold takeFrame
  split
  · rfl
  · rw [List.drop_eq_nil_of_le (by omega)]
    rfl

/-- From `RopeReader::read_internal`: repeatedly take the next lazy
slice, copy at most the wanted number of bytes, and push back the
remainder of a partially consumed slice.  Returns the bytes copied (in
order) and the final stack; the Rust function's return value is the
number of bytes copied, i.e. the length of the first component. -/
def RopeReader.read_internal (want : Nat) (s : List StackElem) : List Nat × List StackElem :=
  if hw : want = 0 then ([], s)
  else
    match h : RopeReader.next s with
    | (none, s') => ([], s')
    | (some bytes, s') =>
      match RopeReader.read_internal (want - min bytes.length want)
          (takeFrame bytes (min bytes.length want) s') with
      | (res, sfin) => (bytes.take (min bytes.length want) ++ res, sfin)
termination_by (want, mu s)
decreasing_by
  have hmu := next_some_mu h
  by_cases hb : bytes.length = 0
  · have hm : min bytes.length want = 0 := by omega
    rw [hm, takeFrame_of_len_zero bytes 0 s' hb, Nat.sub_zero]
    exact Prod.Lex.right _ hmu
  · exact Prod.Lex.left _ _ (by omega)

theorem read_internal_spec (want : Nat) (s : List StackElem) :
    (RopeReader.read_internal want s).1 = (stackFlat s).take want ∧
    stackFlat (RopeReader.read_internal want s).2 = (stackFlat s).drop want := by
  induction want, s using RopeReader.read_internal.induct with
  | case1 s => simp [RopeReader.read_internal]
  | case2 want s hw s' h =>
    rw [RopeReader.read_internal, dif_neg hw]
    split
    · rename_i s2 heq
      obtain ⟨h1, h2⟩ := next_none_spec heq
      simp [h1, h2, stackFlat]
    · rename_i bytes s2 heq
      rw [h] at heq
      simp at heq
  | case3 want s hw bytes s' h res sfin hrec ih =>
    rw [RopeReader.read_internal, dif_neg hw]
    split
    · rename_i s2 heq
      rw [h] at heq
      simp at heq
    · rename_i bytes2 s2 heq
      rw [h] at heq
      simp only [Prod.mk.injEq, Option.some.injEq] at heq
      obtain ⟨hb2, hs2⟩ := heq
      subst hb2; subst hs2
      rw [hrec]
      rw [hrec] at ih
      obtain ⟨ih1, ih2⟩ := ih
      dsimp only at ih1 ih2
      have hflat : stackFlat s = bytes ++ stackFlat s' := next_some_flat h
      have hA1 : min bytes.length want ≤ bytes.length := Nat.min_le_left _ _
      have hA2 : min bytes.length want ≤ want := Nat.min_le_right _ _
      have htf : stackFlat (takeFrame bytes (min bytes.length want) s') =
          (stackFlat s).drop (min bytes.length want) := by
        rw [stackFlat_takeFrame, hflat, List.drop_append_of_le_length hA1]
      constructor
      · show bytes.take (min bytes.length want) ++ res = (stackFlat s).take want
        rw [ih1, htf]
        rw [show (stackFlat s).take want =
            (stackFlat s).take (min bytes.length want + (want - min bytes.length want)) by
          rw [Nat.add_sub_cancel' hA2]]
        rw [List.take_add]
        congr 1
        rw [hflat, List.take_append_of_le_length hA1]
      · show stackFlat sfin = (stackFlat s).drop want
        rw [ih2, htf, List.drop_drop]
        congr 1
        omega

/-- Draining the lazy slice iterator: the list of slices produced by
repeatedly calling `RopeReader::next` until exhaustion. -/
def RopeReader.drainIter (s : List StackElem) : List (List Nat) :=
  match h : RopeReader.next s with
  | (none, _) => []
  | (some b, s') => b :: RopeReader.drainIter s'
termination_by mu s
decreasing_by exact next_some_mu h

theorem drainIter_flatten (s : List StackElem) :
    (RopeReader.drainIter s).flatten = stackFlat s := by
  induction s using RopeReader.drainIter.induct with
  | case1 s s2 h =>
    obtain ⟨h1, h2⟩ := next_none_spec h
    rw [RopeReader.drainIter]
    split
    · simp [h2]
    · rename_i b s3 heq
      rw [h] at heq
      simp at heq
  | case2 s b s' h ih =>
    rw [RopeReader.drainIter]
    split
    · rename_i s3 heq
      rw [h] at heq
      simp at heq
    · rename_i b2 s2 heq
      rw [h] at heq
      simp only [Prod.mk.injEq, Option.some.injEq] at heq
      obtain ⟨hb2, hs2⟩ := heq
      subst hb2; subst hs2
      simp [ih, next_some_flat h]

/-- From `impl Read for RopeReader` (`fn read`): fill a buffer of the
given capacity via `read_internal`; the returned count is the length of
the first component. -/
def RopeReader.read (bufLen : Nat) (s : List StackElem) : List Nat × List StackElem :=
  RopeReader.read_internal bufLen s

/-- From `impl AsyncRead for RopeReader` (`fn poll_read`): delegates to
`read_internal` with the buffer's remaining capacity and always
completes synchronously. -/
def RopeReader.poll_read (remaining : Nat) (s : List StackElem) : List Nat × List StackElem :=
  RopeReader.read_internal remaining s

/-- Draining a rope through the blocking `Read` interface: repeatedly
read into a buffer of capacity `w` until a read returns zero bytes,
concatenating everything read. -/
def RopeReader.drainRead (w : Nat) (s : List StackElem) : List Nat :=
  if h : (RopeReader.read w s).1 = [] then []
  else (RopeReader.read w s).1 ++ RopeReader.drainRead w (RopeReader.read w s).2
termination_by (stackFlat s).length
decreasing_by
  have hspec := read_internal_spec w s
  rw [RopeReader.read] at h ⊢
  rw [hspec.2]
  have : ¬(w = 0 ∨ stackFlat s = []) := by
    intro hc
    apply h
    rw [hspec.1, List.take_eq_nil_iff]
    exact hc
  push_neg at this
  have hlen : stackFlat s ≠ [] := this.2
  have hw : w ≠ 0 := this.1
  have := List.length_pos.mpr hlen
  rw [List.length_drop]
  omega

/-- Draining a rope through the non-blocking `AsyncRead` interface:
repeatedly poll into a buffer of capacity `w` until a poll fills zero
bytes, concatenating everything filled. -/
def RopeReader.drainAsync (w : Nat) (s : List StackElem) : List Nat :=
  if h : (RopeReader.poll_read w s).1 = [] then []
  else (RopeReader.poll_read w s).1 ++ RopeReader.drainAsync w (RopeReader.poll_read w s).2
termination_by (stackFlat s).length
decreasing_by
  have hspec := read_internal_spec w s
  rw [RopeReader.poll_read] at h ⊢
  rw [hspec.2]
  have : ¬(w = 0 ∨ stackFlat s = []) := by
    intro hc
    apply h
    rw [hspec.1, List.take_eq_nil_iff]
    exact hc
  push_neg at this
  have := List.length_pos.mpr this.2
  rw [List.length_drop]
  omega

theorem drainRead_flat {w : Nat} (hw : w ≠ 0) (s : List StackElem) :
    RopeReader.drainRead w s = stackFlat s := by
  induction s using RopeReader.drainRead.induct w with
  | case1 s h =>
    rw [RopeReader.drainRead, dif_pos h]
    rw [RopeReader.read] at h
    rw [(read_internal_spec w s).1, List.take_eq_nil_iff] at h
    rcases h with h | h
    · exact absurd h hw
    · rw [h]
  | case2 s h ih =>
    rw [RopeReader.drainRead, dif_neg h]
    rw [ih]
    rw [RopeReader.read, (read_internal_spec w s).1, (read_internal_spec w s).2]
    rw [List.take_append_drop]

theorem drainAsync_flat {w : Nat} (hw : w ≠ 0) (s : List StackElem) :
    RopeReader.drainAsync w s = stackFlat s := by
  induction s using RopeReader.drainAsync.induct w with
  | case1 s h =>
    rw [RopeReader.drainAsync, dif_pos h]
    rw [RopeReader.poll_read] at h
    rw [(read_internal_spec w s).1, List.take_eq_nil_iff] at h
    rcases h with h | h
    · exact absurd h hw
    · rw [h]
  | case2 s h ih =>
    rw [RopeReader.drainAsync, dif_neg h]
    rw [ih]
    rw [RopeReader.poll_read, (read_internal_spec w s).1, (read_internal_spec w s).2]
    rw [List.take_append_drop]

theorem fill_buf_of_next_none {s s' : List StackElem}
    (h : RopeReader.next s = (none, s')) : RopeReader.fill_buf s = ([], s') := by
  unfold RopeReader.fill_buf
  rw [h]

theorem fill_buf_of_next_some {s s' : List StackElem} {b : List Nat}
    (h : RopeReader.next s = (some b, s')) :
    RopeReader.fill_buf s = (b, StackElem.Local b :: s') := by
  unfold RopeReader.fill_buf
  rw [h]

theorem fill_buf_inv {s s1 : List StackElem} {a : List Nat}
    (h : RopeReader.fill_buf s = (a, s1)) (ha : a ≠ []) :
    ∃ t, RopeReader.next s = (some a, t) ∧ s1 = StackElem.Local a :: t := by
  rcases hn : RopeReader.next s with ⟨o, t⟩
  cases o with
  | none =>
    have h2 := (fill_buf_of_next_none hn).symm.trans h
    simp only [Prod.mk.injEq] at h2
    exact absurd h2.1.symm ha
  | some b =>
    have h2 := (fill_buf_of_next_some hn).symm.trans h
    simp only [Prod.mk.injEq] at h2
    obtain ⟨hb, hs⟩ := h2
    subst hb
    exact ⟨t, rfl, hs.symm⟩

theorem consume_le_spec {amt : Nat} {b : List Nat} {rest : List StackElem}
    (h : amt ≤ b.length) :
    RopeReader.consume amt (StackElem.Local b :: rest) = some (takeFrame b amt rest) := by
  have hc : RopeReader.consume amt (StackElem.Local b :: rest) =
      if amt = b.length then some rest
      else if amt ≤ b.length then some (StackElem.Local (b.drop amt) :: rest)
      else none := rfl
  rw [hc]
  unfold takeFrame
  by_cases he : amt = b.length
  · rw [if_pos he, if_neg (by omega)]
  · rw [if_neg he, if_pos h, if_pos (by omega)]

theorem stackWF_takeFrame {b : List Nat} {amt : Nat} {rest : List StackElem}
    (hwf : stackWF rest = true) : stackWF (takeFrame b amt rest) = true := by
  unfold takeFrame
  split
  · rename_i hlt
    rw [stackWF_cons_local, Bool.and_eq_true]
    refine ⟨?_, hwf⟩
    have hne : b.drop amt ≠ [] := by
      intro hnil
      have := congrArg List.length hnil
      simp only [List.length_drop, List.length_nil] at this
      omega
    simpa using hne
  · exact hwf

/-- From `impl PartialEq for InnerRope` (`fn eq`): walk two readers in
lockstep with `fill_buf`/`consume`, comparing aligned prefixes.  When
either side is exhausted the loop returns whether both are.  The Rust
code indexes `a[0..len]`/`b[0..len]`, modelled with `List.take`; the
`consume` calls cannot panic there (`len` is at most each slice's
length), so the `none` fallback arm is unreachable. -/
def InnerRope.eqLoop (l r : List StackElem) : Bool :=
  match hl : RopeReader.fill_buf l, hr : RopeReader.fill_buf r with
  | (a, l1), (b, r1) =>
    if hz : min a.length b.length = 0 then a.length == b.length
    else if a.take (min a.length b.length) = b.take (min a.length b.length) then
      match hcl : RopeReader.consume (min a.length b.length) l1,
            hcr : RopeReader.consume (min a.length b.length) r1 with
      | some l2, some r2 => InnerRope.eqLoop l2 r2
      | _, _ => false
    else false
termination_by (stackFlat l).length
decreasing_by
  have ha : a ≠ [] := by
    intro hnil
    rw [hnil] at hz
    simp at hz
  obtain ⟨t, hn, hs⟩ := fill_buf_inv hl ha
  rw [hs, consume_le_spec (Nat.min_le_left _ _)] at hcl
  have hl2 : l2 = takeFrame a (min a.length b.length) t := by
    injection hcl with e
    exact e.symm
  rw [hl2, stackFlat_takeFrame, next_some_flat hn]
  simp only [List.length_append, List.length_drop]
  have hmin : 0 < min a.length b.length := Nat.pos_of_ne_zero hz
  have := Nat.min_le_left a.length b.length
  omega

theorem eqLoop_flat_iff : ∀ n l r, (stackFlat l).length ≤ n → stackWF l = true → stackWF r = true →
    (InnerRope.eqLoop l r = true ↔ stackFlat l = stackFlat r) := by
  intro n
  induction n using Nat.strong_induction_on with
  | _ n ih =>
    intro l r hlen hwl hwr
    rcases hnl : RopeReader.next l with ⟨ol, tl⟩
    rcases hnr : RopeReader.next r with ⟨obr, tr⟩
    cases ol with
    | none =>
      cases obr with
      | none =>
        have hfl : stackFlat l = [] := (next_none_spec hnl).2
        have hfr : stackFlat r = [] := (next_none_spec hnr).2
        rw [InnerRope.eqLoop]
        split
        rename_i a l1 b r1 hl hr
        have h2 := (fill_buf_of_next_none hnl).symm.trans hl
        have h3 := (fill_buf_of_next_none hnr).symm.trans hr
        simp only [Prod.mk.injEq] at h2 h3
        obtain ⟨ha, -⟩ := h2
        obtain ⟨hb, -⟩ := h3
        rw [← ha, ← hb]
        simp [hfl, hfr]
      | some br =>
        have hfl : stackFlat l = [] := (next_none_spec hnl).2
        have hbr : br ≠ [] := (next_some_wf hnr hwr).1
        have hfr : stackFlat r = br ++ stackFlat tr := next_some_flat hnr
        rw [InnerRope.eqLoop]
        split
        rename_i a l1 b r1 hl hr
        have h2 := (fill_buf_of_next_none hnl).symm.trans hl
        have h3 := (fill_buf_of_next_some hnr).symm.trans hr
        simp only [Prod.mk.injEq] at h2 h3
        obtain ⟨ha, -⟩ := h2
        obtain ⟨hb, -⟩ := h3
        rw [← ha, ← hb]
        simp [hfl, hfr, hbr]
        have := List.length_pos.mpr hbr
        omega
    | some bl =>
      have hbl : bl ≠ [] := (next_some_wf hnl hwl).1
      have hfl : stackFlat l = bl ++ stackFlat tl := next_some_flat hnl
      cases obr with
      | none =>
        have hfr : stackFlat r = [] := (next_none_spec hnr).2
        rw [InnerRope.eqLoop]
        split
        rename_i a l1 b r1 hl hr
        have h2 := (fill_buf_of_next_some hnl).symm.trans hl
        have h3 := (fill_buf_of_next_none hnr).symm.trans hr
        simp only [Prod.mk.injEq] at h2 h3
        obtain ⟨ha, -⟩ := h2
        obtain ⟨hb, -⟩ := h3
        rw [← ha, ← hb]
        simp [hfl, hfr, hbl]
      | some br =>
        have hbr : br ≠ [] := (next_some_wf hnr hwr).1
        have hfr : stackFlat r = br ++ stackFlat tr := next_some_flat hnr
        have hwtl : stackWF tl = true := (next_some_wf hnl hwl).2
        have hwtr : stackWF tr = true := (next_some_wf hnr hwr).2
        rw [InnerRope.eqLoop]
        split
        rename_i a l1 b r1 hl hr
        have h2 := (fill_buf_of_next_some hnl).symm.trans hl
        have h3 := (fill_buf_of_next_some hnr).symm.trans hr
        simp only [Prod.mk.injEq] at h2 h3
        obtain ⟨ha, hl1⟩ := h2
        obtain ⟨hb, hr1⟩ := h3
        subst ha; subst hb
        have hm : 0 < min bl.length br.length := by
          have h4 : 0 < bl.length := List.length_pos.mpr hbl
          have h5 : 0 < br.length := List.length_pos.mpr hbr
          omega
        rw [dif_neg (by omega)]
        have htakel : (stackFlat l).take (min bl.length br.length) =
            bl.take (min bl.length br.length) := by
          rw [hfl, List.take_append_of_le_length (Nat.min_le_left _ _)]
        have htaker : (stackFlat r).take (min bl.length br.length) =
            br.take (min bl.length br.length) := by
          rw [hfr, List.take_append_of_le_length (Nat.min_le_right _ _)]
        by_cases hteq : bl.take (min bl.length br.length) = br.take (min bl.length br.length)
        · rw [if_pos hteq]
          rw [← hl1, ← hr1]
          rw [consume_le_spec (Nat.min_le_left _ _), consume_le_spec (Nat.min_le_right _ _)]
          have hfl2 : stackFlat (takeFrame bl (min bl.length br.length) tl) =
              (stackFlat l).drop (min bl.length br.length) := by
            rw [stackFlat_takeFrame, hfl, List.drop_append_of_le_length (Nat.min_le_left _ _)]
          have hfr2 : stackFlat (takeFrame br (min bl.length br.length) tr) =
              (stackFlat r).drop (min bl.length br.length) := by
            rw [stackFlat_takeFrame, hfr, List.drop_append_of_le_length (Nat.min_le_right _ _)]
          have hlen2 : (stackFlat (takeFrame bl (min bl.length br.length) tl)).length < n := by
            rw [hfl2, List.length_drop]
            have hpos : 0 < (stackFlat l).length := by
              rw [hfl, List.length_append]
              have := List.length_pos.mpr hbl
              omega
            omega
          have hih := ih _ hlen2 (takeFrame bl (min bl.length br.length) tl)
            (takeFrame br (min bl.length br.length) tr) le_rfl
            (stackWF_takeFrame hwtl) (stackWF_takeFrame hwtr)
          have hiff2 : (stackFlat l = stackFlat r) ↔
              (stackFlat (takeFrame bl (min bl.length br.length) tl) =
               stackFlat (takeFrame br (min bl.length br.length) tr)) := by
            rw [hfl2, hfr2]
            constructor
            · intro he; rw [he]
            · intro he
              rw [← List.take_append_drop (min bl.length br.length) (stackFlat l),
                  ← List.take_append_drop (min bl.length br.length) (stackFlat r),
                  he, htakel, htaker, hteq]
          rw [hiff2]
          exact hih
        · rw [if_neg hteq]
          constructor
          · intro hfalse
            exact absurd hfalse (by simp)
          · intro heqflat
            exfalso
            apply hteq
            rw [← htakel, ← htaker, heqflat]

/-- From `impl PartialEq for InnerRope`: equality of two segment stores
compares readers over them in lockstep (`Rope`'s derived equality
delegates here for its `data` field). -/
def InnerRope.eq (a b : List RopeElem) : Bool :=
  InnerRope.eqLoop (RopeReader.new a) (RopeReader.new b)

theorem stackFlat_new (rope : List RopeElem) :
    stackFlat (RopeReader.new rope) = InnerRope.flatten rope := by
  unfold RopeReader.new
  split
  · rename_i he
    rw [List.isEmpty_iff] at he
    rw [he]
    rfl
  · show InnerRope.flatten (rope.drop 0) ++ stackFlat [] = InnerRope.flatten rope
    simp [stackFlat]

theorem stackWF_new {rope : List RopeElem} (h : InnerRope.wfList rope = true) :
    stackWF (RopeReader.new rope) = true := by
  unfold RopeReader.new
  split
  · rfl
  · show (InnerRope.wfList (rope.drop 0) && stackWF []) = true
    simp [stackWF, h]

theorem innerEq_iff {a b : List RopeElem}
    (hwa : InnerRope.wfList a = true) (hwb : InnerRope.wfList b = true) :
    (InnerRope.eq a b = true ↔ InnerRope.flatten a = InnerRope.flatten b) := by
  unfold InnerRope.eq
  rw [eqLoop_flat_iff (stackFlat (RopeReader.new a)).length _ _ le_rfl
    (stackWF_new hwa) (stackWF_new hwb), stackFlat_new, stackFlat_new]

theorem flatten_append (xs ys : List RopeElem) :
    InnerRope.flatten (xs ++ ys) = InnerRope.flatten xs ++ InnerRope.flatten ys := by
  induction xs with
  | nil => rfl
  | cons e rest ihr => simp [InnerRope.flatten, ihr]

theorem wfList_append (xs ys : List RopeElem) :
    InnerRope.wfList (xs ++ ys) = (InnerRope.wfList xs && InnerRope.wfList ys) := by
  induction xs with
  | nil => rfl
  | cons e rest ihr => simp [InnerRope.wfList, ihr, Bool.and_assoc]

theorem WFB_empty : RopeBuilder.empty.WFB := by
  refine ⟨rfl, rfl, rfl⟩

theorem wfU_push_bytes {u : Uncommitted} {bytes : List Nat}
    (hu : u.wfU = true) (hb : bytes ≠ []) : (u.push_bytes bytes).wfU = true := by
  cases u <;> simp_all [Uncommitted.push_bytes, Uncommitted.wfU]

theorem wfU_push_static_bytes {u : Uncommitted} {bytes : List Nat}
    (hu : u.wfU = true) (hb : bytes ≠ []) : (u.push_static_bytes bytes).wfU = true := by
  cases u <;> simp_all [Uncommitted.push_static_bytes, Uncommitted.push_bytes, Uncommitted.wfU]

theorem WFB_push_bytes {bld : RopeBuilder} (h : bld.WFB) (bytes : List Nat) :
    (bld.push_bytes bytes).WFB := by
  unfold RopeBuilder.push_bytes
  split
  · exact h
  · rename_i hb
    exact ⟨h.1, h.2.1, wfU_push_bytes h.2.2 hb⟩

theorem WFB_finish {bld : RopeBuilder} (h : bld.WFB) : bld.finish.WFB := by
  obtain ⟨h1, h2, h3⟩ := h
  unfold RopeBuilder.finish
  cases hu : bld.uncommited with
  | None => exact ⟨h1, h2, rfl⟩
  | Static s =>
    rw [hu] at h3
    refine ⟨?_, ?_, rfl⟩
    · show bld.length + s.length = (InnerRope.flatten (bld.committed ++ [RopeElem.Local s])).length
      rw [flatten_append, List.length_append, ← h1]
      simp [InnerRope.flatten, RopeElem.flatten]
    · show InnerRope.wfList (bld.committed ++ [RopeElem.Local s]) = true
      rw [wfList_append, Bool.and_eq_true]
      exact ⟨h2, by simp_all [InnerRope.wfList, RopeElem.wfEl, Uncommitted.wfU]⟩
  | Owned v =>
    rw [hu] at h3
    refine ⟨?_, ?_, rfl⟩
    · show bld.length + v.length = (InnerRope.flatten (bld.committed ++ [RopeElem.Local v])).length
      rw [flatten_append, List.length_append, ← h1]
      simp [InnerRope.flatten, RopeElem.flatten]
    · show InnerRope.wfList (bld.committed ++ [RopeElem.Local v]) = true
      rw [wfList_append, Bool.and_eq_true]
      exact ⟨h2, by simp_all [InnerRope.wfList, RopeElem.wfEl, Uncommitted.wfU]⟩

theorem WFB_push_static_bytes {bld : RopeBuilder} (h : bld.WFB) (bytes : List Nat) :
    (bld.push_static_bytes bytes).WFB := by
  unfold RopeBuilder.push_static_bytes
  split
  · exact h
  · rename_i hb
    split
    · exact ⟨h.1, h.2.1, wfU_push_static_bytes h.2.2 hb⟩
    · rename_i hlen
      have hf := WFB_finish h
      refine ⟨?_, ?_, hf.2.2⟩
      · show bld.finish.length + bytes.length =
          (InnerRope.flatten (bld.finish.committed ++ [RopeElem.Local bytes])).length
        rw [flatten_append, List.length_append, ← hf.1]
        simp [InnerRope.flatten, RopeElem.flatten]
      · show InnerRope.wfList (bld.finish.committed ++ [RopeElem.Local bytes]) = true
        rw [wfList_append, Bool.and_eq_true]
        refine ⟨hf.2.1, ?_⟩
        simp [InnerRope.wfList, RopeElem.wfEl, hb]

theorem WFB_concat {bld : RopeBuilder} {other : Rope} (h : bld.WFB) (ho : other.WF) :
    (bld.concat other).WFB := by
  unfold RopeBuilder.concat
  split
  · exact h
  · rename_i hne
    have hf := WFB_finish h
    have hlen : other.length = (InnerRope.flatten other.data).length := ho.1
    have hnonempty : other.data ≠ [] := by
      intro hd
      apply hne
      unfold Rope.is_empty
      rw [hlen, hd]
      rfl
    refine ⟨?_, ?_, hf.2.2⟩
    · show bld.finish.length + other.len =
        (InnerRope.flatten (bld.finish.committed ++ [RopeElem.Shared other.data])).length
      rw [flatten_append, List.length_append, ← hf.1]
      simp [InnerRope.flatten, RopeElem.flatten, Rope.len, hlen]
    · show InnerRope.wfList (bld.finish.committed ++ [RopeElem.Shared other.data]) = true
      rw [wfList_append, Bool.and_eq_true]
      refine ⟨hf.2.1, ?_⟩
      simp [InnerRope.wfList, RopeElem.wfEl, hnonempty, ho.2]

theorem WF_build {bld : RopeBuilder} (h : bld.WFB) : bld.build.WF := by
  have hf := WFB_finish h
  exact ⟨hf.1, hf.2.1⟩

theorem WF_fromBytes (bytes : List Nat) : (Rope.fromBytes bytes).WF := by
  unfold Rope.fromBytes
  split
  · exact ⟨rfl, rfl⟩
  · rename_i hb
    refine ⟨?_, ?_⟩
    · show bytes.length = (InnerRope.flatten [RopeElem.Local bytes]).length
      simp [InnerRope.flatten, RopeElem.flatten]
    · simp [InnerRope.wfList, RopeElem.wfEl, hb]

/-- A builder operation, as in the claim: push owned bytes, push static
bytes, concatenate a rope (itself built from a sequence of operations),
or finish. -/
inductive BuilderOp where
  | pushB (b : List Nat)
  | pushS (b : List Nat)
  | concatR (ops : List BuilderOp)
  | finishB

mutual

/-- Apply one builder operation. -/
def applyOp (bld : RopeBuilder) : BuilderOp → RopeBuilder
  | .pushB b => bld.push_bytes b
  | .pushS b => bld.push_static_bytes b
  | .concatR ops => bld.concat (buildOps ops)
  | .finishB => bld.finish

/-- Apply a sequence of builder operations in order. -/
def applyOps (bld : RopeBuilder) : List BuilderOp → RopeBuilder
  | [] => bld
  | op :: rest => applyOps (applyOp bld op) rest

/-- The rope obtained by running a sequence of operations on a fresh
builder and calling `build`. -/
def buildOps (ops : List BuilderOp) : Rope :=
  (applyOps RopeBuilder.empty ops).build

end

theorem applyOps_WFB : ∀ (n : Nat) (ops : List BuilderOp), sizeOf ops ≤ n →
    ∀ bld : RopeBuilder, bld.WFB → (applyOps bld ops).WFB := by
  intro n
  induction n using Nat.strong_induction_on with
  | _ n ih =>
    intro ops hsz bld hwf
    match ops with
    | [] => simpa [applyOps] using hwf
    | op :: rest =>
      have hsz1 : sizeOf op + sizeOf rest + 1 ≤ n := by
        have : sizeOf (op :: rest) = 1 + sizeOf op + sizeOf rest := by simp
        omega
      have h1 : (applyOp bld op).WFB := by
        match op with
        | .pushB b =>
          rw [show applyOp bld (BuilderOp.pushB b) = bld.push_bytes b by simp [applyOp]]
          exact WFB_push_bytes hwf b
        | .pushS b =>
          rw [show applyOp bld (BuilderOp.pushS b) = bld.push_static_bytes b by simp [applyOp]]
          exact WFB_push_static_bytes hwf b
        | .finishB =>
          rw [show applyOp bld BuilderOp.finishB = bld.finish by simp [applyOp]]
          exact WFB_finish hwf
        | .concatR ops2 =>
          rw [show applyOp bld (BuilderOp.concatR ops2) = bld.concat (buildOps ops2) by simp [applyOp]]
          have hsz2 : sizeOf ops2 < n := by
            have : sizeOf (BuilderOp.concatR ops2) = 1 + sizeOf ops2 := by simp
            omega
          have hrec := ih (sizeOf ops2) hsz2 ops2 le_rfl RopeBuilder.empty WFB_empty
          have hbuilt : (buildOps ops2).WF := by
            rw [show buildOps ops2 = (applyOps RopeBuilder.empty ops2).build by simp [buildOps]]
            exact WF_build hrec
          exact WFB_concat hwf hbuilt
      have hszr : sizeOf rest < n := by
        have hop : 0 < sizeOf op := by
          cases op <;> simp
        omega
      have h2 := ih (sizeOf rest) hszr rest le_rfl (applyOp bld op) h1
      rw [show applyOps bld (op :: rest) = applyOps (applyOp bld op) rest by simp [applyOps]]
      exact h2

theorem buildOps_WF (ops : List BuilderOp) : (buildOps ops).WF := by
  have h := applyOps_WFB (sizeOf ops) ops le_rfl RopeBuilder.empty WFB_empty
  rw [show buildOps ops = (applyOps RopeBuilder.empty ops).build by simp [buildOps]]
  exact WF_build h

/-- Modelled from the spec: the `DeterministicHasher` trait lives in the
`turbo-tasks-hash` crate, outside the sources at hand.  Per the spec,
the hasher state is the stream of absorbed bytes; `write_usize` absorbs
a fixed-width 8-byte little-endian encoding of the number (one machine
word on the modelled 64-bit platform). -/
def writeUsize (n : Nat) : List Nat :=
  [n % 256, n / 2 ^ 8 % 256, n / 2 ^ 16 % 256, n / 2 ^ 24 % 256,
   n / 2 ^ 32 % 256, n / 2 ^ 40 % 256, n / 2 ^ 48 % 256, n / 2 ^ 56 % 256]

mutual

/-- From `impl DeterministicHash for RopeElem`: a `Local` feeds its raw
bytes (`state.write_bytes`, which absorbs the bytes and no length), a
`Shared` recurses into its store. -/
def RopeElem.dhash (st : List Nat) : RopeElem → List Nat
  | .Local bytes => st ++ bytes
  | .Shared inner => InnerRope.dhash st inner

/-- From `impl DeterministicHash for InnerRope`: feed every segment in
order; no store length is written. -/
def InnerRope.dhash (st : List Nat) : List RopeElem → List Nat
  | [] => st
  | e :: rest => InnerRope.dhash (RopeElem.dhash st e) rest

end

/-- From `impl DeterministicHash for Rope`: write the total length
(`state.write_usize(self.len())`), then hash the store. -/
def Rope.dhash (r : Rope) (st : List Nat) : List Nat :=
  InnerRope.dhash (st ++ writeUsize r.len) r.data

theorem dhash_append : ∀ (n : Nat) (l : List RopeElem), sizeOf l ≤ n →
    ∀ st, InnerRope.dhash st l = st ++ InnerRope.flatten l := by
  intro n
  induction n using Nat.strong_induction_on with
  | _ n ih =>
    intro l hsz st
    match l with
    | [] => simp [InnerRope.dhash, InnerRope.flatten]
    | e :: rest =>
      have hsze : sizeOf (e :: rest) = 1 + sizeOf e + sizeOf rest := by simp
      have hrest : sizeOf rest < n := by
        have : 0 < sizeOf e := by cases e <;> simp
        omega
      have h1 : InnerRope.dhash st (e :: rest) = InnerRope.dhash (RopeElem.dhash st e) rest := by
        simp [InnerRope.dhash]
      rw [h1, ih (sizeOf rest) hrest rest le_rfl]
      have h2 : RopeElem.dhash st e = st ++ RopeElem.flatten e := by
        match e with
        | .Local b => simp [RopeElem.dhash, RopeElem.flatten]
        | .Shared inner =>
          have hszi : sizeOf inner < n := by
            have : sizeOf (RopeElem.Shared inner) = 1 + sizeOf inner := by simp
            omega
          rw [show RopeElem.dhash st (RopeElem.Shared inner) = InnerRope.dhash st inner by
            simp [RopeElem.dhash]]
          rw [ih (sizeOf inner) hszi inner le_rfl]
          rfl
      rw [h2]
      simp [InnerRope.flatten]

theorem dhash_flat (l : List RopeElem) (st : List Nat) :
    InnerRope.dhash st l = st ++ InnerRope.flatten l :=
  dhash_append (sizeOf l) l le_rfl st

theorem rope_dhash_eq (r : Rope) (st : List Nat) :
    Rope.dhash r st = st ++ writeUsize r.len ++ InnerRope.flatten r.data := by
  unfold Rope.dhash
  rw [dhash_flat]

theorem rope_WF_len_drain {r : Rope} (hr : r.WF) :
    r.len = ((RopeReader.drainIter (RopeReader.new r.data)).map List.length).sum := by
  show r.length = _
  rw [hr.1, ← stackFlat_new, ← drainIter_flatten, List.length_flatten]

/-- C1: for every sequence of builder operations followed by `build`,
and for every rope constructed directly from a byte buffer, the reported
`len()` equals the sum of the lengths of the slices yielded by fully
draining the lazy slice iterator of a fresh reader. -/
theorem rope_len_eq_drain_sum (ops : List BuilderOp) (bytes : List Nat) :
    (buildOps ops).len =
      ((RopeReader.drainIter (RopeReader.new (buildOps ops).data)).map List.length).sum ∧
    (Rope.fromBytes bytes).len =
      ((RopeReader.drainIter (RopeReader.new (Rope.fromBytes bytes).data)).map List.length).sum :=
  ⟨rope_WF_len_drain (buildOps_WF ops), rope_WF_len_drain (WF_fromBytes bytes)⟩

/-- C2: content equality on the inner segment stores (to which rope
equality delegates) returns `true` exactly when the flattened byte
sequences agree, independently of tree structure. -/
theorem rope_content_eq_iff (a b : Rope) (ha : a.WF) (hb : b.WF) :
    (InnerRope.eq a.data b.data = true ↔
      InnerRope.flatten a.data = InnerRope.flatten b.data) :=
  innerEq_iff ha.2 hb.2

theorem rope_content_eq_iff_witness :
    Rope.WF ⟨2, [RopeElem.Local [97, 98]]⟩ ∧
    Rope.WF ⟨2, [RopeElem.Shared [RopeElem.Local [97]], RopeElem.Local [98]]⟩ ∧
    InnerRope.eq (Rope.mk 2 [RopeElem.Local [97, 98]]).data
      (Rope.mk 2 [RopeElem.Shared [RopeElem.Local [97]], RopeElem.Local [98]]).data = true :=
  ⟨⟨by decide, by decide⟩, ⟨by decide, by decide⟩,
   (rope_content_eq_iff ⟨2, [RopeElem.Local [97, 98]]⟩
      ⟨2, [RopeElem.Shared [RopeElem.Local [97]], RopeElem.Local [98]]⟩
      ⟨by decide, by decide⟩ ⟨by decide, by decide⟩).mpr (by decide)⟩

/-- C3: the deterministic hash of a rope is the absorbed encoding of its
total length followed by exactly the raw leaf bytes in order (no store
or leaf lengths), so two well-formed ropes with identical flat bytes
hash identically regardless of tree shape. -/
theorem rope_hash_shape_independent (a b : Rope) (st : List Nat) (ha : a.WF) (hb : b.WF) :
    InnerRope.dhash st a.data = st ++ InnerRope.flatten a.data ∧
    Rope.dhash a st = st ++ writeUsize a.len ++ InnerRope.flatten a.data ∧
    (InnerRope.flatten a.data = InnerRope.flatten b.data → Rope.dhash a st = Rope.dhash b st) := by
  refine ⟨dhash_flat _ _, rope_dhash_eq _ _, ?_⟩
  intro hf
  rw [rope_dhash_eq, rope_dhash_eq, hf]
  have hl : a.len = b.len := by
    show a.length = b.length
    rw [ha.1, hb.1, hf]
  rw [hl]

theorem rope_hash_shape_independent_witness :
    Rope.WF ⟨3, [RopeElem.Local [1, 2, 3]]⟩ ∧
    Rope.WF ⟨3, [RopeElem.Shared [RopeElem.Local [1]], RopeElem.Local [2, 3]]⟩ ∧
    Rope.dhash ⟨3, [RopeElem.Local [1, 2, 3]]⟩ [] =
      Rope.dhash ⟨3, [RopeElem.Shared [RopeElem.Local [1]], RopeElem.Local [2, 3]]⟩ [] :=
  ⟨⟨by decide, by decide⟩, ⟨by decide, by decide⟩,
   (rope_hash_shape_independent ⟨3, [RopeElem.Local [1, 2, 3]]⟩
      ⟨3, [RopeElem.Shared [RopeElem.Local [1]], RopeElem.Local [2, 3]]⟩ []
      ⟨by decide, by decide⟩ ⟨by decide, by decide⟩).2.2 (by decide)⟩

/-- C4 counterexample: a builder holding static bytes `[1]` in its
pending region, pushed a 32-byte static input (at least
`size_of::<Bytes>()`), flushes the hold and commits the input as its own
leaf: the pending region becomes `None`, not `Owned ([1] ++ input)`. -/
theorem static_hold_large_push_not_coalesced :
    (RopeBuilder.push_static_bytes ⟨0, [], Uncommitted.Static [1]⟩
      (List.replicate 32 7)).uncommited = Uncommitted.None ∧
    (RopeBuilder.push_static_bytes ⟨0, [], Uncommitted.Static [1]⟩
      (List.replicate 32 7)).uncommited ≠
      Uncommitted.Owned ([1] ++ List.replicate 32 7) := by
  constructor
  · rfl
  · decide

/-- C4 (amended): for a builder whose pending region is `Static s`,
pushing non-empty static bytes `b` smaller than `size_of::<Bytes>()`
turns the pending region into `Owned (s ++ b)` and leaves everything
else unchanged; at the `Uncommitted` level the coalescing transition
`Static s` to `Owned (s ++ b)` holds for `b` of any size. -/
theorem static_hold_small_push_coalesces (bld : RopeBuilder) (s b : List Nat)
    (hu : bld.uncommited = Uncommitted.Static s) :
    (b ≠ [] → b.length < bytesSize →
      bld.push_static_bytes b = { bld with uncommited := Uncommitted.Owned (s ++ b) }) ∧
    (Uncommitted.Static s).push_static_bytes b = Uncommitted.Owned (s ++ b) := by
  constructor
  · intro hb hlen
    unfold RopeBuilder.push_static_bytes
    rw [if_neg hb, if_pos hlen, hu]
    rfl
  · rfl

theorem static_hold_small_push_coalesces_witness :
    (RopeBuilder.mk 0 [] (Uncommitted.Static [1])).uncommited = Uncommitted.Static [1] ∧
    ([2] : List Nat) ≠ [] ∧ ([2] : List Nat).length < bytesSize ∧
    RopeBuilder.push_static_bytes ⟨0, [], Uncommitted.Static [1]⟩ [2] =
      ⟨0, [], Uncommitted.Owned [1, 2]⟩ ∧
    (Uncommitted.Static [1]).push_static_bytes [2] = Uncommitted.Owned [1, 2] := by
  refine ⟨rfl, by decide, by decide, ?_, ?_⟩
  · exact (static_hold_small_push_coalesces ⟨0, [], Uncommitted.Static [1]⟩ [1] [2]
      rfl).1 (by decide) (by decide)
  · exact (static_hold_small_push_coalesces ⟨0, [], Uncommitted.Static [1]⟩ [1] [2]
      rfl).2

/-- C5: routing of `RopeBuilder::push_static_bytes`: empty input is a
no-op; input strictly smaller than `size_of::<Bytes>()` is routed to the
pending region as an owned-style push; otherwise the pending region is
flushed and a single new leaf holding the input is appended, the
committed length growing by the input's length. -/
theorem push_static_bytes_routing (bld : RopeBuilder) (b : List Nat) :
    (b = [] → bld.push_static_bytes b = bld) ∧
    (b ≠ [] → b.length < bytesSize →
      bld.push_static_bytes b =
        { bld with uncommited := bld.uncommited.push_static_bytes b }) ∧
    (bytesSize ≤ b.length →
      bld.push_static_bytes b =
        { length := bld.finish.length + b.length
          committed := bld.finish.committed ++ [RopeElem.Local b]
          uncommited := bld.finish.uncommited } ∧
      (bld.push_static_bytes b).length = bld.finish.length + b.length) := by
  refine ⟨?_, ?_, ?_⟩
  · intro hb
    unfold RopeBuilder.push_static_bytes
    rw [if_pos hb]
  · intro hb hlen
    unfold RopeBuilder.push_static_bytes
    rw [if_neg hb, if_pos hlen]
  · intro hlen
    have hb : b ≠ [] := by
      intro hnil
      rw [hnil] at hlen
      simp [bytesSize] at hlen
    constructor
    · unfold RopeBuilder.push_static_bytes
      rw [if_neg hb, if_neg (by omega)]
    · unfold RopeBuilder.push_static_bytes
      rw [if_neg hb, if_neg (by omega)]

theorem push_static_bytes_routing_witness :
    (([] : List Nat) = [] ∧
      RopeBuilder.push_static_bytes ⟨0, [], Uncommitted.None⟩ [] = ⟨0, [], Uncommitted.None⟩) ∧
    (([5] : List Nat) ≠ [] ∧ ([5] : List Nat).length < bytesSize ∧
      RopeBuilder.push_static_bytes ⟨0, [], Uncommitted.None⟩ [5] =
        ⟨0, [], Uncommitted.Static [5]⟩) ∧
    (bytesSize ≤ (List.replicate 32 9).length ∧
      RopeBuilder.push_static_bytes ⟨0, [], Uncommitted.None⟩ (List.replicate 32 9) =
        ⟨32, [RopeElem.Local (List.replicate 32 9)], Uncommitted.None⟩) := by
  refine ⟨⟨rfl, ?_⟩, ⟨by decide, by decide, ?_⟩, ⟨by decide, ?_⟩⟩
  · exact (push_static_bytes_routing ⟨0, [], Uncommitted.None⟩ []).1 rfl
  · exact (push_static_bytes_routing ⟨0, [], Uncommitted.None⟩ [5]).2.1 (by decide) (by decide)
  · have h := ((push_static_bytes_routing ⟨0, [], Uncommitted.None⟩
      (List.replicate 32 9)).2.2 (by decide)).1
    rw [h]
    rfl

/-- C6: for any reader state and positive buffer capacity `w`, a
blocking or non-blocking read copies exactly `min w remaining` bytes in
stream order (the Rust return value is the number of copied bytes, the
length of the first component), and it copies zero bytes exactly when
the stream is exhausted: no spurious short read. -/
theorem read_copies_min_remaining (s : List StackElem) (w : Nat) (hw : 0 < w) :
    (RopeReader.read_internal w s).1 = (stackFlat s).take w ∧
    (RopeReader.read_internal w s).1.length = min w (stackFlat s).length ∧
    ((RopeReader.read_internal w s).1.length = 0 ↔ stackFlat s = []) ∧
    RopeReader.read w s = RopeReader.read_internal w s ∧
    RopeReader.poll_read w s = RopeReader.read_internal w s := by
  have h1 := (read_internal_spec w s).1
  refine ⟨h1, ?_, ?_, rfl, rfl⟩
  · rw [h1, List.length_take]
  · rw [h1, List.length_take]
    constructor
    · intro h
      have hz : (stackFlat s).length = 0 := by omega
      exact List.length_eq_zero.mp hz
    · intro h
      rw [h]
      simp

theorem read_copies_min_remaining_witness :
    0 < 2 ∧
    (RopeReader.read_internal 2 [StackElem.Local [4, 5, 6]]).1 =
      (stackFlat [StackElem.Local [4, 5, 6]]).take 2 :=
  ⟨by decide, (read_copies_min_remaining [StackElem.Local [4, 5, 6]] 2 (by decide)).1⟩

/-- C7: draining any rope through the blocking `Read` interface with any
positive buffer capacity, through the non-blocking `AsyncRead`
interface, or by concatenating the slices of the lazy iterator yields
the same byte sequence. -/
theorem drain_interfaces_agree (r : Rope) (w : Nat) (hw : 0 < w) :
    RopeReader.drainRead w (RopeReader.new r.data) =
      (RopeReader.drainIter (RopeReader.new r.data)).flatten ∧
    RopeReader.drainAsync w (RopeReader.new r.data) =
      (RopeReader.drainIter (RopeReader.new r.data)).flatten := by
  rw [drainIter_flatten, drainRead_flat (by omega), drainAsync_flat (by omega)]
  exact ⟨rfl, rfl⟩

theorem drain_interfaces_agree_witness :
    0 < 1 ∧
    RopeReader.drainRead 1 (RopeReader.new (Rope.mk 2 [RopeElem.Local [8, 9]]).data) =
      (RopeReader.drainIter (RopeReader.new (Rope.mk 2 [RopeElem.Local [8, 9]]).data)).flatten :=
  ⟨by decide, (drain_interfaces_agree ⟨2, [RopeElem.Local [8, 9]]⟩ 1 (by decide)).1⟩

/-- C8: pushing an empty owned buffer, pushing an empty static byte
string, and concatenating an empty rope leave the builder entirely
unchanged, so the rope eventually built is the same. -/
theorem empty_pushes_are_noops (bld : RopeBuilder) (r : Rope) :
    bld.push_bytes [] = bld ∧
    bld.push_static_bytes [] = bld ∧
    (r.is_empty = true → bld.concat r = bld) := by
  refine ⟨?_, ?_, ?_⟩
  · unfold RopeBuilder.push_bytes
    rw [if_pos rfl]
  · unfold RopeBuilder.push_static_bytes
    rw [if_pos rfl]
  · intro he
    unfold RopeBuilder.concat
    rw [if_pos he]

theorem empty_pushes_are_noops_witness :
    (Rope.mk 0 []).is_empty = true ∧
    RopeBuilder.concat ⟨1, [RopeElem.Local [3]], Uncommitted.None⟩ ⟨0, []⟩ =
      ⟨1, [RopeElem.Local [3]], Uncommitted.None⟩ :=
  ⟨by decide,
   (empty_pushes_are_noops ⟨1, [RopeElem.Local [3]], Uncommitted.None⟩ ⟨0, []⟩).2.2 (by decide)⟩

/-- C9: `finish` is idempotent: after one `finish` the pending region is
`None`, a second `finish` changes nothing, and `build` after `finish`
builds the same rope as `build` alone. -/
theorem finish_idempotent (bld : RopeBuilder) :
    bld.finish.uncommited = Uncommitted.None ∧
    bld.finish.finish = bld.finish ∧
    bld.finish.build = bld.build := by
  cases hu : bld.uncommited with
  | None =>
    unfold RopeBuilder.finish RopeBuilder.build RopeBuilder.finish
    rw [hu]
    exact ⟨rfl, rfl, rfl⟩
  | Static s =>
    unfold RopeBuilder.finish RopeBuilder.build RopeBuilder.finish
    rw [hu]
    exact ⟨rfl, rfl, rfl⟩
  | Owned v =>
    unfold RopeBuilder.finish RopeBuilder.build RopeBuilder.finish
    rw [hu]
    exact ⟨rfl, rfl, rfl⟩

/-- C10: `consume` on a reader whose top frame is a leaf with `L`
remaining bytes pops the frame when `n = L`, advances the slice to its
last `L - n` bytes when `n < L`, and panics (modelled as `none`, the
panic of `Bytes::advance`) when `n > L`; on an empty stack or a branch
top frame it is a safe no-op for every `n`. -/
theorem consume_top_frame_spec (b : List Nat) (rest : List StackElem) (n : Nat)
    (r : List RopeElem) (i : Nat) :
    (n = b.length → RopeReader.consume n (StackElem.Local b :: rest) = some rest) ∧
    (n < b.length →
      RopeReader.consume n (StackElem.Local b :: rest) =
        some (StackElem.Local (b.drop n) :: rest) ∧
      (b.drop n).length = b.length - n ∧
      stackFlat (StackElem.Local (b.drop n) :: rest) = b.drop n ++ stackFlat rest) ∧
    (b.length < n → RopeReader.consume n (StackElem.Local b :: rest) = none) ∧
    RopeReader.consume n [] = some [] ∧
    RopeReader.consume n (StackElem.Shared r i :: rest) =
      some (StackElem.Shared r i :: rest) := by
  have hc : RopeReader.consume n (StackElem.Local b :: rest) =
      if n = b.length then some rest
      else if n ≤ b.length then some (StackElem.Local (b.drop n) :: rest)
      else none := rfl
  refine ⟨?_, ?_, ?_, rfl, rfl⟩
  · intro h
    rw [hc, if_pos h]
  · intro h
    refine ⟨?_, ?_, rfl⟩
    · rw [hc, if_neg (by omega), if_pos (by omega)]
    · rw [List.length_drop]
  · intro h
    rw [hc, if_neg (by omega), if_neg (by omega)]

theorem consume_top_frame_spec_witness :
    (3 = ([4, 5, 6] : List Nat).length ∧
      RopeReader.consume 3 [StackElem.Local [4, 5, 6]] = some []) ∧
    (1 < ([4, 5, 6] : List Nat).length ∧
      RopeReader.consume 1 [StackElem.Local [4, 5, 6]] =
        some [StackElem.Local [5, 6]]) ∧
    (([4, 5, 6] : List Nat).length < 7 ∧
      RopeReader.consume 7 [StackElem.Local [4, 5, 6]] = none) ∧
    RopeReader.consume 5 ([] : List StackElem) = some [] := by
  refine ⟨⟨by decide, ?_⟩, ⟨by decide, ?_⟩, ⟨by decide, ?_⟩, ?_⟩
  · exact (consume_top_frame_spec [4, 5, 6] [] 3 [] 0).1 (by decide)
  · exact ((consume_top_frame_spec [4, 5, 6] [] 1 [] 0).2.1 (by decide)).1
  · exact (consume_top_frame_spec [4, 5, 6] [] 7 [] 0).2.2.1 (by decide)
  · exact (consume_top_frame_spec [9] [] 5 [] 0).2.2.2.1
